import Mathlib

/-!
Verification development for the kisaan_whatsapp_bot backend.

Shallow embedding of the parts of the code base that the checked
properties are about:

 * `services/crop_detector.py` — text normalization and the fuzzy
   crop-identification engine (`normalize_text`, `CropDetector`).
 * `services/crop_name.py` — the curated-ambiguity table and the
   `detect_crop` decision pipeline.
 * `services/conversation.py` — the multimodal query aggregator.
 * `services/conversation current working backup.py` — the Gemini call
   orchestrator (`_gemini_generate_content`, `_check_budget`) and the
   aggregation timeout fallback.
 * `services/rag_builder.py` — crop-tag resolution and evidence
   retrieval (`retrieve_rag_evidence`).

Python strings are modeled as lists of Unicode codepoints (`PyStr :=
List Nat`).  The modeled alphabet is ASCII plus the Devanagari block
U+0900..U+097F; on this alphabet Unicode NFKC normalization is the
identity, `str.lower()` is the ASCII case map, and the regex classes
used by the code (`\w`, `\s`, the Devanagari range) are the decidable
classifications below.  External collaborators (the Gemini model, the
thread pool, the Chroma index, rapidfuzz scores) enter as explicit
function parameters, exactly at the interfaces the code consumes.
-/

/-- A Python string: the list of its Unicode codepoints. -/
abbrev PyStr : Type := List Nat

/-- Codepoints of a Lean string literal, used to write concrete Python strings. -/
def ls (s : String) : PyStr := s.toList.map Char.toNat

/-- Python regex `\s` on the modeled alphabet: space, tab, LF, VT, FF, CR. -/
def isSpaceN (n : Nat) : Bool := n = 32 || n = 9 || n = 10 || n = 11 || n = 12 || n = 13

/-- Devanagari block U+0900..U+097F, the range the code keeps explicitly. -/
def isDevanagariN (n : Nat) : Bool := 2304 ≤ n && n ≤ 2431

/-- Python regex `\w` on the modeled ASCII alphabet: letters, digits, underscore. -/
def isWordN (n : Nat) : Bool :=
  (65 ≤ n && n ≤ 90) || (97 ≤ n && n ≤ 122) || (48 ≤ n && n ≤ 57) || n = 95

/-- A codepoint kept (not replaced) by `_PUNCT_RE = [^\w\sऀ-ॿ]+`. -/
def isKeptN (n : Nat) : Bool := isWordN n || isSpaceN n || isDevanagariN n

/-- Unicode NFKC normalization; the identity on the modeled alphabet. -/
def nfkcN (n : Nat) : Nat := n

/-- Python `str.lower()` on the modeled alphabet: the ASCII case map. -/
def pyLowerN (n : Nat) : Nat := if 65 ≤ n ∧ n ≤ 90 then n + 32 else n

/-- Python `str.lower()` over a whole string. -/
def pyLower (s : PyStr) : PyStr := s.map pyLowerN

/-- `_PUNCT_RE.sub(" ", s)`: each maximal run of non-kept codepoints becomes
one space; the run replacement of the regex is rendered with an in-run flag. -/
def punctSubAux : Bool → List Nat → List Nat
  | _, [] => []
  | inRun, c :: cs =>
    if isKeptN c then c :: punctSubAux false cs
    else if inRun then punctSubAux true cs
    else 32 :: punctSubAux true cs

/-- The `_PUNCT_RE` substitution applied to a whole string. -/
def punctSub (l : List Nat) : List Nat := punctSubAux false l

/-- `_SPACE_RE.sub(" ", s)`: each maximal run of whitespace becomes one space,
rendered with the same in-run flag device. -/
def spaceSubAux : Bool → List Nat → List Nat
  | _, [] => []
  | inRun, c :: cs =>
    if isSpaceN c then
      if inRun then spaceSubAux true cs else 32 :: spaceSubAux true cs
    else c :: spaceSubAux false cs

/-- The `_SPACE_RE` substitution applied to a whole string. -/
def spaceSub (l : List Nat) : List Nat := spaceSubAux false l

/-- Python `str.strip()`: drop leading and trailing whitespace. -/
def stripEnds (l : PyStr) : PyStr :=
  ((List.dropWhile isSpaceN l).reverse.dropWhile isSpaceN).reverse

/-- `crop_detector.normalize_text`: NFKC, lowercase, strip punctuation,
collapse whitespace, strip ends; empty input short-circuits to the empty string. -/
def normalize_text (s : PyStr) : PyStr :=
  if s = [] then []
  else stripEnds (spaceSub (punctSub ((s.map nfkcN).map pyLowerN)))

/-- Python `str.split()` with no argument: the maximal whitespace-free runs,
collected through an accumulator of the current token in reverse. -/
def splitWsAux (cur : PyStr) : List Nat → List PyStr
  | [] => if cur = [] then [] else [cur.reverse]
  | c :: cs =>
    if isSpaceN c then
      if cur = [] then splitWsAux [] cs else cur.reverse :: splitWsAux [] cs
    else splitWsAux (c :: cur) cs

/-- Python `str.split()` with no argument on a whole string. -/
def splitWs (l : List Nat) : List PyStr := splitWsAux [] l

/-- `crop_detector.tokenize`: normalize then split on whitespace. -/
def tokenize (s : PyStr) : List PyStr := splitWs (normalize_text s)

/-- Does `needle` start the list `hay` (Python `str.startswith` on codepoints)? -/
def startsWith : List Nat → List Nat → Bool
  | [], _ => true
  | _ :: _, [] => false
  | a :: as, b :: bs => a = b && startsWith as bs

/-- Python substring test `needle in hay` for strings. -/
def containsSub (needle : List Nat) : List Nat → Bool
  | [] => startsWith needle []
  | c :: rest => startsWith needle (c :: rest) || containsSub needle rest

/-- Python `c in s` for a single codepoint. -/
def containsChar (c : Nat) (s : PyStr) : Bool := s.any (fun x => x = c)

/-- A multi-word alias in the detector index: it contains a space. -/
def hasSpace (s : PyStr) : Bool := containsChar 32 s

/-! ### Idempotence of `normalize_text` (claim C9) -/

theorem pyLowerN_idem (n : Nat) : pyLowerN (pyLowerN n) = pyLowerN n := by
  simp only [pyLowerN]
  split_ifs <;> omega

theorem punctSubAux_cons (b : Bool) (d : Nat) (ds : List Nat) :
    punctSubAux b (d :: ds) =
      if isKeptN d then d :: punctSubAux false ds
      else if b then punctSubAux true ds
      else 32 :: punctSubAux true ds := rfl

theorem spaceSubAux_cons (b : Bool) (d : Nat) (ds : List Nat) :
    spaceSubAux b (d :: ds) =
      if isSpaceN d then
        if b then spaceSubAux true ds else 32 :: spaceSubAux true ds
      else d :: spaceSubAux false ds := rfl

theorem mem_punctSubAux {c : Nat} :
    ∀ {l : List Nat} {b : Bool}, c ∈ punctSubAux b l → c = 32 ∨ (c ∈ l ∧ isKeptN c = true) := by
  intro l
  induction l with
  | nil => intro b h; simp [punctSubAux] at h
  | cons d ds ih =>
    intro b h
    rw [punctSubAux_cons] at h
    by_cases hk : isKeptN d = true
    · rw [if_pos hk] at h
      rcases List.mem_cons.mp h with h | h
      · exact Or.inr ⟨h ▸ List.mem_cons_self d ds, h ▸ hk⟩
      · rcases ih h with h32 | ⟨hm, hq⟩
        · exact Or.inl h32
        · exact Or.inr ⟨List.mem_cons_of_mem d hm, hq⟩
    · rw [if_neg hk] at h
      have step : c ∈ punctSubAux true ds ∨ c = 32 := by
        cases b with
        | true => rw [if_pos rfl] at h; exact Or.inl h
        | false =>
          rw [if_neg (by simp)] at h
          rcases List.mem_cons.mp h with h | h
          · exact Or.inr h
          · exact Or.inl h
      rcases step with h | h32
      · rcases ih h with h32 | ⟨hm, hq⟩
        · exact Or.inl h32
        · exact Or.inr ⟨List.mem_cons_of_mem d hm, hq⟩
      · exact Or.inl h32

theorem mem_punctSub {c : Nat} {l : List Nat} (h : c ∈ punctSub l) :
    c = 32 ∨ (c ∈ l ∧ isKeptN c = true) := mem_punctSubAux h

theorem mem_spaceSubAux {c : Nat} :
    ∀ {l : List Nat} {b : Bool}, c ∈ spaceSubAux b l → c = 32 ∨ (c ∈ l ∧ isSpaceN c = false) := by
  intro l
  induction l with
  | nil => intro b h; simp [spaceSubAux] at h
  | cons d ds ih =>
    intro b h
    rw [spaceSubAux_cons] at h
    by_cases hk : isSpaceN d = true
    · rw [if_pos hk] at h
      have step : c ∈ spaceSubAux true ds ∨ c = 32 := by
        cases b with
        | true => rw [if_pos rfl] at h; exact Or.inl h
        | false =>
          rw [if_neg (by simp)] at h
          rcases List.mem_cons.mp h with h | h
          · exact Or.inr h
          · exact Or.inl h
      rcases step with h | h32
      · rcases ih h with h32 | ⟨hm, hq⟩
        · exact Or.inl h32
        · exact Or.inr ⟨List.mem_cons_of_mem d hm, hq⟩
      · exact Or.inl h32
    · rw [if_neg hk] at h
      rcases List.mem_cons.mp h with h | h
      · refine Or.inr ⟨h ▸ List.mem_cons_self d ds, h ▸ ?_⟩
        simp only [Bool.not_eq_true] at hk
        exact hk
      · rcases ih h with h32 | ⟨hm, hq⟩
        · exact Or.inl h32
        · exact Or.inr ⟨List.mem_cons_of_mem d hm, hq⟩

theorem mem_spaceSub {c : Nat} {l : List Nat} (h : c ∈ spaceSub l) :
    c = 32 ∨ (c ∈ l ∧ isSpaceN c = false) := mem_spaceSubAux h

theorem punctSub_eq_self {l : List Nat} (h : ∀ c ∈ l, isKeptN c = true) :
    punctSub l = l := by
  unfold punctSub
  induction l with
  | nil => rfl
  | cons d ds ih =>
    rw [punctSubAux_cons, if_pos (h d (List.mem_cons_self d ds))]
    rw [ih (fun c hc => h c (List.mem_cons_of_mem d hc))]

/-- Adjacent codepoints are never both whitespace. -/
abbrev NoAdjSpace (l : List Nat) : Prop :=
  List.Chain' (fun a b => isSpaceN a = false ∨ isSpaceN b = false) l

theorem spaceSubAux_true_head :
    ∀ {l : List Nat}, ∀ y ∈ (spaceSubAux true l).head?, isSpaceN y = false := by
  intro l
  induction l with
  | nil => intro y hy; simp [spaceSubAux] at hy
  | cons d ds ih =>
    intro y hy
    rw [spaceSubAux_cons] at hy
    by_cases hk : isSpaceN d = true
    · rw [if_pos hk, if_pos rfl] at hy
      exact ih y hy
    · rw [if_neg hk] at hy
      simp only [List.head?, Option.mem_def, Option.some.injEq] at hy
      subst hy
      simp only [Bool.not_eq_true] at hk
      exact hk

theorem noAdjSpace_spaceSubAux : ∀ (l : List Nat) (b : Bool), NoAdjSpace (spaceSubAux b l) := by
  intro l
  induction l with
  | nil => intro b; simp [spaceSubAux]
  | cons d ds ih =>
    intro b
    rw [spaceSubAux_cons]
    by_cases hk : isSpaceN d = true
    · rw [if_pos hk]
      cases b with
      | true => rw [if_pos rfl]; exact ih true
      | false =>
        rw [if_neg (by simp)]
        exact List.chain'_cons'.mpr
          ⟨fun y hy => Or.inr (spaceSubAux_true_head y hy), ih true⟩
    · rw [if_neg hk]
      exact List.chain'_cons'.mpr
        ⟨fun y _ => Or.inl (by simp only [Bool.not_eq_true] at hk; exact hk), ih false⟩

theorem noAdjSpace_spaceSub (l : List Nat) : NoAdjSpace (spaceSub l) :=
  noAdjSpace_spaceSubAux l false

theorem spaceSubAux_true_eq_false {l : List Nat}
    (h : ∀ y ∈ l.head?, isSpaceN y = false) :
    spaceSubAux true l = spaceSubAux false l := by
  cases l with
  | nil => rfl
  | cons d ds =>
    have hd : isSpaceN d = false := h d (by simp)
    rw [spaceSubAux_cons, spaceSubAux_cons, if_neg (by simp [hd]), if_neg (by simp [hd])]

theorem spaceSub_eq_self {l : List Nat}
    (h32 : ∀ c ∈ l, isSpaceN c = true → c = 32) (hadj : NoAdjSpace l) :
    spaceSub l = l := by
  unfold spaceSub
  induction l with
  | nil => rfl
  | cons d ds ih =>
    by_cases hd : isSpaceN d = true
    · have hd32 : d = 32 := h32 d (List.mem_cons_self d ds) hd
      have hhead : ∀ y ∈ ds.head?, isSpaceN y = false := by
        intro y hy
        rcases (List.chain'_cons'.mp hadj).1 y hy with h | h
        · rw [hd] at h; cases h
        · exact h
      rw [spaceSubAux_cons, if_pos hd, if_neg (by simp),
        spaceSubAux_true_eq_false hhead,
        ih (fun c hc hs => h32 c (List.mem_cons_of_mem d hc) hs)
          (List.chain'_cons'.mp hadj).2, hd32]
    · rw [spaceSubAux_cons, if_neg hd,
        ih (fun c hc hs => h32 c (List.mem_cons_of_mem d hc) hs)
          (List.chain'_cons'.mp hadj).2]

theorem noAdjSpace_dropWhile {p : Nat → Bool} {l : List Nat}
    (h : NoAdjSpace l) : NoAdjSpace (l.dropWhile p) := by
  induction l with
  | nil => exact h
  | cons a t ih =>
    by_cases hp : p a = true
    · rw [List.dropWhile_cons, if_pos (by simp [hp])]
      exact ih (List.chain'_cons'.mp h).2
    · rw [List.dropWhile_cons, if_neg (by simp [hp])]
      exact h

theorem noAdjSpace_reverse {l : List Nat} (h : NoAdjSpace l) :
    NoAdjSpace l.reverse := by
  rw [NoAdjSpace, List.chain'_reverse]
  exact h.imp (fun {a b} hab => hab.symm)

theorem noAdjSpace_stripEnds {l : List Nat} (h : NoAdjSpace l) :
    NoAdjSpace (stripEnds l) := by
  exact noAdjSpace_reverse (noAdjSpace_dropWhile (noAdjSpace_reverse (noAdjSpace_dropWhile h)))

theorem mem_stripEnds {c : Nat} {l : List Nat} (h : c ∈ stripEnds l) : c ∈ l := by
  unfold stripEnds at h
  rw [List.mem_reverse] at h
  have h1 := (List.dropWhile_sublist isSpaceN).mem h
  rw [List.mem_reverse] at h1
  exact (List.dropWhile_sublist isSpaceN).mem h1

theorem map_eq_self_of {α : Type} {f : α → α} :
    ∀ {l : List α}, (∀ x ∈ l, f x = x) → l.map f = l := by
  intro l
  induction l with
  | nil => intro _; rfl
  | cons a t ih =>
    intro h
    simp only [List.map_cons]
    rw [h a (List.mem_cons_self a t), ih (fun x hx => h x (List.mem_cons_of_mem a hx))]

theorem dropWhile_eq_self_of_head {α : Type} {p : α → Bool} {l : List α}
    (h : ∀ y ∈ l.head?, p y = false) : l.dropWhile p = l := by
  cases l with
  | nil => rfl
  | cons a t =>
    have := h a (by simp)
    simp [List.dropWhile_cons, this]

theorem getLast?_dropWhile_ne_nil {α : Type} {p : α → Bool} :
    ∀ {l : List α}, l.dropWhile p ≠ [] → (l.dropWhile p).getLast? = l.getLast? := by
  intro l
  induction l with
  | nil => intro h; simp at h
  | cons a t ih =>
    intro h
    by_cases hp : p a = true
    · rw [List.dropWhile_cons, if_pos (by simp [hp])] at h ⊢
      cases t with
      | nil => simp at h
      | cons b u => rw [ih h, List.getLast?_cons_cons]
    · rw [List.dropWhile_cons, if_neg (by simp [hp])]

theorem stripEnds_head (l : List Nat) :
    ∀ y ∈ (stripEnds l).head?, isSpaceN y = false := by
  unfold stripEnds
  intro y hy
  rw [List.head?_reverse] at hy
  by_cases hB : (List.dropWhile isSpaceN l).reverse.dropWhile isSpaceN = []
  · rw [hB] at hy; simp at hy
  · rw [getLast?_dropWhile_ne_nil hB, List.getLast?_reverse] at hy
    have hh := List.head?_dropWhile_not isSpaceN l
    cases hdw : (List.dropWhile isSpaceN l).head? with
    | none => rw [hdw] at hy; simp at hy
    | some d =>
      rw [hdw] at hy hh
      simp only [Option.mem_def, Option.some.injEq] at hy
      subst hy
      exact hh

theorem stripEnds_getLast (l : List Nat) :
    ∀ y ∈ (stripEnds l).reverse.head?, isSpaceN y = false := by
  unfold stripEnds
  rw [List.reverse_reverse]
  intro y hy
  have hh := List.head?_dropWhile_not isSpaceN (List.dropWhile isSpaceN l).reverse
  cases hdw : ((List.dropWhile isSpaceN l).reverse.dropWhile isSpaceN).head? with
  | none => rw [hdw] at hy; simp at hy
  | some d =>
    rw [hdw] at hy hh
    simp only [Option.mem_def, Option.some.injEq] at hy
    subst hy
    exact hh

theorem stripEnds_eq_self_of {l : List Nat}
    (h1 : ∀ y ∈ l.head?, isSpaceN y = false)
    (h2 : ∀ y ∈ l.reverse.head?, isSpaceN y = false) :
    stripEnds l = l := by
  unfold stripEnds
  rw [dropWhile_eq_self_of_head h1, dropWhile_eq_self_of_head h2, List.reverse_reverse]

theorem normalize_core_fixed (y : List Nat) :
    stripEnds (spaceSub (punctSub
        (((stripEnds (spaceSub (punctSub (y.map pyLowerN)))).map nfkcN).map pyLowerN))) =
      stripEnds (spaceSub (punctSub (y.map pyLowerN))) := by
  set t := stripEnds (spaceSub (punctSub (y.map pyLowerN))) with ht
  have hmemu : ∀ c ∈ t, c = 32 ∨ (c ∈ punctSub (y.map pyLowerN) ∧ isSpaceN c = false) := by
    intro c hc
    exact mem_spaceSub (mem_stripEnds (ht ▸ hc))
  have hkept : ∀ c ∈ t, isKeptN c = true := by
    intro c hc
    rcases hmemu c hc with h | ⟨hm, _⟩
    · subst h; decide
    · rcases mem_punctSub hm with h | ⟨_, hk⟩
      · subst h; decide
      · exact hk
  have hlower : ∀ c ∈ t, pyLowerN c = c := by
    intro c hc
    rcases hmemu c hc with h | ⟨hm, _⟩
    · subst h; decide
    · rcases mem_punctSub hm with h | ⟨hx, _⟩
      · subst h; decide
      · rcases List.mem_map.mp hx with ⟨a, _, ha⟩
        rw [← ha, pyLowerN_idem]
  have h32 : ∀ c ∈ t, isSpaceN c = true → c = 32 := by
    intro c hc hsp
    rcases hmemu c hc with h | ⟨_, hf⟩
    · exact h
    · rw [hsp] at hf; cases hf
  have hadj : NoAdjSpace t := ht ▸ noAdjSpace_stripEnds (noAdjSpace_spaceSub _)
  have hhl : ∀ y ∈ t.head?, isSpaceN y = false := ht ▸ stripEnds_head _
  have hgl : ∀ y ∈ t.reverse.head?, isSpaceN y = false := ht ▸ stripEnds_getLast _
  rw [@map_eq_self_of _ nfkcN t (fun x _ => rfl),
    map_eq_self_of hlower,
    punctSub_eq_self hkept,
    spaceSub_eq_self h32 hadj,
    stripEnds_eq_self_of hhl hgl]

/-- C9.  `normalize_text` is idempotent: normalizing an already-normalized
string returns it unchanged (NFKC, lowercasing, punctuation stripping and
whitespace collapsing applied twice agree with one application). -/
theorem normalize_text_idem (s : PyStr) :
    normalize_text (normalize_text s) = normalize_text s := by
  by_cases hs : s = []
  · subst hs
    simp [normalize_text]
  · by_cases htn : normalize_text s = []
    · rw [htn]
      simp [normalize_text]
    · conv_lhs => rw [normalize_text, if_neg htn]
      rw [show normalize_text s = stripEnds (spaceSub (punctSub ((s.map nfkcN).map pyLowerN)))
        from by rw [normalize_text, if_neg hs]]
      exact normalize_core_fixed (s.map nfkcN)

/-! ### The crop detector (`services/crop_detector.py`)

Transliteration is modeled as unavailable (`OptionalTransliteration.available
= False`), so `alias_variants` and `query_variants` return no extra forms and
`identify_crop` processes the single variant `q_norm`.  The rapidfuzz scorers
`fuzz.ratio` and `fuzz.partial_ratio` are outside the repository; they enter
as the abstract score functions `ratio` and `pratio`. -/

/-- The `match_type` tags produced by the detector. -/
inductive MatchType
  | exact_phrase
  | exact_word
  | fuzzy_phrase
  | fuzzy_token
deriving DecidableEq, Repr

/-- `crop_detector.MatchResult`. -/
structure MatchResult where
  master_name : PyStr
  score : ℚ
  match_type : MatchType
  matched_alias : PyStr
deriving DecidableEq, Repr

/-- One `{"en": ..., "hi": ...}` synonym record of a crop entry. -/
structure SynPair where
  en : PyStr
  hi : PyStr
deriving DecidableEq, Repr

/-- One entry of the crops vocabulary (`master_name` plus synonym records). -/
structure CropEntry where
  master_name : PyStr
  synonyms : List SynPair
deriving DecidableEq, Repr

/-- Insertion-ordered association list, modeling a Python dict. -/
def alookup {β : Type} : List (PyStr × β) → PyStr → Option β
  | [], _ => none
  | (k, v) :: rest, a => if k = a then some v else alookup rest a

/-- `alias_to_masters`: alias, in insertion order, to its list of owning masters. -/
abbrev AliasIndex := List (PyStr × List PyStr)

/-- Append `master` to the list unless already present (`_store_alias` body). -/
def addMasterOnce (ms : List PyStr) (m : PyStr) : List PyStr :=
  if m ∈ ms then ms else ms ++ [m]

/-- `CropDetector._store_alias`: dict `setdefault` plus guarded append. -/
def storeAlias : AliasIndex → PyStr → PyStr → AliasIndex
  | [], master, al => [(al, [master])]
  | (k, v) :: rest, master, al =>
    if k = al then (k, addMasterOnce v master) :: rest
    else (k, v) :: storeAlias rest master al

/-- `CropDetector._add_alias` with the transliteration layer unavailable:
normalize the raw alias and store it unless empty. -/
def addAlias (idx : AliasIndex) (master alias_raw : PyStr) : AliasIndex :=
  let al := normalize_text alias_raw
  if al = [] then idx else storeAlias idx master al

/-- The per-crop part of `CropDetector._build_index`: the master name itself,
then the `en` and `hi` form of every synonym record, skipping empty forms. -/
def addCropAliases (idx : AliasIndex) (item : CropEntry) : AliasIndex :=
  let idx1 := addAlias idx item.master_name item.master_name
  item.synonyms.foldl (fun acc syn =>
    let acc1 := if syn.en ≠ [] then addAlias acc item.master_name syn.en else acc
    if syn.hi ≠ [] then addAlias acc1 item.master_name syn.hi else acc1) idx1

/-- The alias index built by `CropDetector._build_index`. -/
def buildAliasIndex (crops : List CropEntry) : AliasIndex :=
  crops.foldl addCropAliases []

/-- Descending-length comparator for the multi-word alias sort
(`self.multi_word_aliases.sort(key=len, reverse=True)`, stable). -/
def lenGe (a b : PyStr) : Bool := b.length ≤ a.length

/-- Stable insertion of `a` after every element `b` with `le b a`. -/
def insertSorted {α : Type} (le : α → α → Bool) (a : α) : List α → List α
  | [] => [a]
  | b :: bs => if le b a then b :: insertSorted le a bs else a :: b :: bs

/-- Python `list.sort` with comparator `le` (`le x y` = `x` may precede `y`):
a stable sort is uniquely determined by its comparator, so the stable
insertion sort below is the same function as the stable sort of the interpreter. -/
def pySort {α : Type} (le : α → α → Bool) (l : List α) : List α :=
  l.foldl (fun acc x => insertSorted le x acc) []

/-- The built `CropDetector` state: the alias index plus the single-word and
multi-word alias lists derived from its keys in insertion order (the Python
loop appends each key to one of the two lists, which is the order-preserving
partition below), with multi-word aliases sorted longest first. -/
structure CropDetector where
  crops : List CropEntry
  alias_to_masters : AliasIndex
  single_word_aliases : List PyStr
  multi_word_aliases : List PyStr

/-- `CropDetector.__init__` followed by `_build_index`. -/
def mkDetector (crops : List CropEntry) : CropDetector :=
  let idx := buildAliasIndex crops
  let allAliases := idx.map Prod.fst
  { crops := crops
    alias_to_masters := idx
    single_word_aliases := allAliases.filter (fun a => !hasSpace a)
    multi_word_aliases := pySort lenGe (allAliases.filter hasSpace) }

/-- `self.alias_to_masters[alias]` (total lookup; every alias consulted by the
detection loops is a key of the index). -/
def aliasMasters (d : CropDetector) (al : PyStr) : List PyStr :=
  (alookup d.alias_to_masters al).getD []

/-- `rapidfuzz.process.extractOne`: first choice of maximal score, `none` on an
empty choice list (no score cutoff is passed by the detector). -/
def extractOne (score : PyStr → ℚ) (choices : List PyStr) : Option (PyStr × ℚ) :=
  choices.foldl (fun acc c =>
    match acc with
    | none => some (c, score c)
    | some (b, s) => if s < score c then some (c, score c) else some (b, s)) none

/-- Steps 1 and 2 of `_detect_single_variant`: exact full-phrase containment
over the multi-word aliases, then exact token membership over the single-word
aliases; every hit is scored 100 (the for-append loops are flat maps). -/
def exactCandidates (d : CropDetector) (q_norm : PyStr) : List MatchResult :=
  (d.multi_word_aliases.flatMap (fun al =>
    if containsSub al q_norm then
      (aliasMasters d al).map (fun m => ⟨m, 100, .exact_phrase, al⟩)
    else [])) ++
  (d.single_word_aliases.flatMap (fun al =>
    if al ∈ splitWs q_norm then
      (aliasMasters d al).map (fun m => ⟨m, 100, .exact_word, al⟩)
    else []))

/-- Steps 3 and 4 of `_detect_single_variant`: fuzzy token matches with the
length-dependent threshold, then one fuzzy whole-phrase match (threshold 88). -/
def fuzzyCandidates (ratio pratio : PyStr → PyStr → ℚ) (d : CropDetector)
    (q_norm : PyStr) : List MatchResult :=
  ((splitWs q_norm).flatMap (fun tok =>
    if tok.length < 2 then []
    else
      let threshold : ℚ := if tok.length ≤ 4 then 92 else if tok.length ≤ 7 then 88 else 85
      match extractOne (ratio tok) d.single_word_aliases with
      | none => []
      | some (al, sc) =>
        if threshold ≤ sc then
          (aliasMasters d al).map (fun m => ⟨m, sc, .fuzzy_token, al⟩)
        else [])) ++
  (if 4 ≤ q_norm.length ∧ d.multi_word_aliases ≠ [] then
    match extractOne (pratio q_norm) d.multi_word_aliases with
    | none => []
    | some (al, sc) =>
      if (88 : ℚ) ≤ sc then
        (aliasMasters d al).map (fun m => ⟨m, sc, .fuzzy_phrase, al⟩)
      else []
  else [])

/-- `CropDetector._detect_single_variant`: the exact candidates when any
exist, the fuzzy candidates otherwise. -/
def detect_single_variant (ratio pratio : PyStr → PyStr → ℚ) (d : CropDetector)
    (q_norm : PyStr) : List MatchResult :=
  let exact := exactCandidates d q_norm
  if exact ≠ [] then exact else fuzzyCandidates ratio pratio d q_norm

/-- The `type_priority` table of `_rank_candidates`. -/
def typePriority : MatchType → Nat
  | .exact_phrase => 4
  | .exact_word => 3
  | .fuzzy_phrase => 2
  | .fuzzy_token => 1

/-- Replace the value stored at a present key, keeping dict order. -/
def updInPlace : List (PyStr × MatchResult) → PyStr → MatchResult → List (PyStr × MatchResult)
  | [], k, c => [(k, c)]
  | (k0, v) :: rest, k, c =>
    if k0 = k then (k0, c) :: rest else (k0, v) :: updInPlace rest k c

/-- The loop body of `_rank_candidates`: keep one best `MatchResult` per
master, preferring higher score then higher type priority. -/
def updateBest (m : List (PyStr × MatchResult)) (c : MatchResult) :
    List (PyStr × MatchResult) :=
  match alookup m c.master_name with
  | none => m ++ [(c.master_name, c)]
  | some prev =>
    if prev.score < c.score ∨
        (c.score = prev.score ∧ typePriority prev.match_type < typePriority c.match_type) then
      updInPlace m c.master_name c
    else m

/-- Comparator of the final stable sort of `_rank_candidates`:
descending lexicographic on `(score, type_priority)` (Python `sort` with
`key=(score, priority)` and `reverse=True` is stable). -/
def rankLe (a b : MatchResult) : Bool :=
  decide (b.score < a.score ∨
    (b.score = a.score ∧ typePriority b.match_type ≤ typePriority a.match_type))

/-- `CropDetector._rank_candidates`. -/
def rank_candidates (candidates : List MatchResult) : List MatchResult :=
  if candidates = [] then []
  else pySort rankLe ((candidates.foldl updateBest []).map Prod.snd)

/-- Python `round(x, 2)` (round half to even at two decimals). -/
def roundHalfEven (q : ℚ) : ℤ :=
  if q - ⌊q⌋ < 1/2 then ⌊q⌋
  else if (1 : ℚ)/2 < q - ⌊q⌋ then ⌊q⌋ + 1
  else if ⌊q⌋ % 2 = 0 then ⌊q⌋ else ⌊q⌋ + 1

/-- Two-decimal rounding used by `CropDetector._as_dict`. -/
def round2 (q : ℚ) : ℚ := (roundHalfEven (q * 100) : ℚ) / 100

/-- The candidate dictionary produced by `CropDetector._as_dict`. -/
structure CandidateDict where
  master_name : PyStr
  score : ℚ
  match_type : MatchType
  matched_alias : PyStr
deriving DecidableEq, Repr

/-- `CropDetector._as_dict`. -/
def as_dict (r : MatchResult) : CandidateDict :=
  ⟨r.master_name, round2 r.score, r.match_type, r.matched_alias⟩

/-- The dictionary returned by `identify_crop`. -/
structure IdentifyResult where
  best : Option CandidateDict
  candidates : List CandidateDict
  ambiguous : Bool
deriving DecidableEq, Repr

/-- `CropDetector._finalize`: ambiguous when the two top-ranked crops are
within 2 points of each other; `best` only when not ambiguous. -/
def finalize (ranked : List MatchResult) (top_k : Nat) : IdentifyResult :=
  match ranked with
  | [] => ⟨none, [], false⟩
  | r0 :: rest =>
    let ambiguous : Bool :=
      match rest with
      | [] => false
      | r1 :: _ => decide (r0.score - r1.score ≤ 2)
    ⟨if ambiguous then none else some (as_dict r0),
      ((r0 :: rest).take top_k).map as_dict,
      ambiguous⟩

/-- `CropDetector.identify_crop` (transliteration unavailable, so the variant
list is exactly `[q_norm]` and the early-break loop runs once). -/
def identify_crop (ratio pratio : PyStr → PyStr → ℚ) (d : CropDetector)
    (query : PyStr) (top_k : Nat) : IdentifyResult :=
  let q_norm := normalize_text query
  if q_norm = [] then ⟨none, [], false⟩
  else finalize (rank_candidates (detect_single_variant ratio pratio d q_norm)) top_k

/-! ### Claims C3 and C4: exact-alias resolution and the ambiguity rule -/

theorem mem_insertSorted {α : Type} {le : α → α → Bool} {a b : α} :
    ∀ {l : List α}, b ∈ insertSorted le a l ↔ b = a ∨ b ∈ l := by
  intro l
  induction l with
  | nil => simp [insertSorted]
  | cons c cs ih =>
    rw [insertSorted]
    by_cases h : le c a = true
    · rw [if_pos h]
      simp only [List.mem_cons, ih]
      tauto
    · rw [if_neg h]
      simp only [List.mem_cons]

theorem mem_pySort {α : Type} {le : α → α → Bool} {b : α} {l : List α} :
    b ∈ pySort le l ↔ b ∈ l := by
  suffices h : ∀ (l acc : List α), b ∈ l.foldl (fun acc x => insertSorted le x acc) acc ↔
      b ∈ acc ∨ b ∈ l by
    have := h l []
    simpa [pySort] using this
  intro l
  induction l with
  | nil => intro acc; simp
  | cons c cs ih =>
    intro acc
    rw [List.foldl_cons, ih]
    simp only [mem_insertSorted, List.mem_cons]
    tauto

theorem hasSpace_ne_nil {a : PyStr} (h : hasSpace a = true) : a ≠ [] := by
  intro hnil
  subst hnil
  simp [hasSpace, containsChar] at h

theorem containsSub_nil {needle : PyStr} (h : needle ≠ []) :
    containsSub needle [] = false := by
  cases needle with
  | nil => cases h rfl
  | cons a as => rfl

theorem alookup_mem_keys {β : Type} :
    ∀ {idx : List (PyStr × β)} {a : PyStr} {v : β},
      alookup idx a = some v → a ∈ idx.map Prod.fst := by
  intro idx
  induction idx with
  | nil => intro a v h; simp [alookup] at h
  | cons kv rest ih =>
    intro a v h
    obtain ⟨k, w⟩ := kv
    simp only [alookup] at h
    by_cases hk : k = a
    · subst hk
      simp
    · rw [if_neg hk] at h
      exact List.mem_cons_of_mem _ (ih h)

theorem aliasMasters_key {d : CropDetector} {al m : PyStr}
    (h : m ∈ aliasMasters d al) : al ∈ d.alias_to_masters.map Prod.fst := by
  unfold aliasMasters at h
  cases hl : alookup d.alias_to_masters al with
  | none => rw [hl] at h; simp at h
  | some v => exact alookup_mem_keys hl

theorem mkDetector_index (crops : List CropEntry) :
    (mkDetector crops).alias_to_masters = buildAliasIndex crops := rfl

theorem mkDetector_single (crops : List CropEntry) :
    (mkDetector crops).single_word_aliases =
      ((buildAliasIndex crops).map Prod.fst).filter (fun a => !hasSpace a) := rfl

theorem mkDetector_multi (crops : List CropEntry) :
    (mkDetector crops).multi_word_aliases =
      pySort lenGe (((buildAliasIndex crops).map Prod.fst).filter hasSpace) := rfl

theorem mem_single_aliases {crops : List CropEntry} {al : PyStr}
    (hk : al ∈ (buildAliasIndex crops).map Prod.fst) (hs : hasSpace al = false) :
    al ∈ (mkDetector crops).single_word_aliases := by
  rw [mkDetector_single]
  exact List.mem_filter.mpr ⟨hk, by simp [hs]⟩

theorem mem_multi_aliases {crops : List CropEntry} {al : PyStr}
    (hk : al ∈ (buildAliasIndex crops).map Prod.fst) (hs : hasSpace al = true) :
    al ∈ (mkDetector crops).multi_word_aliases := by
  rw [mkDetector_multi]
  exact mem_pySort.mpr (List.mem_filter.mpr ⟨hk, hs⟩)

theorem multi_aliases_hasSpace {crops : List CropEntry} {al : PyStr}
    (h : al ∈ (mkDetector crops).multi_word_aliases) : hasSpace al = true := by
  rw [mkDetector_multi] at h
  exact (List.mem_filter.mp (mem_pySort.mp h)).2

theorem exact_phrase_mem {d : CropDetector} {al m q : PyStr}
    (hal : al ∈ d.multi_word_aliases) (hcon : containsSub al q = true)
    (hm : m ∈ aliasMasters d al) :
    (⟨m, 100, .exact_phrase, al⟩ : MatchResult) ∈ exactCandidates d q := by
  unfold exactCandidates
  refine List.mem_append.mpr (Or.inl ?_)
  refine List.mem_flatMap.mpr ⟨al, hal, ?_⟩
  rw [if_pos hcon]
  exact List.mem_map.mpr ⟨m, hm, rfl⟩

theorem exact_word_mem {d : CropDetector} {al m q : PyStr}
    (hal : al ∈ d.single_word_aliases) (htok : al ∈ splitWs q)
    (hm : m ∈ aliasMasters d al) :
    (⟨m, 100, .exact_word, al⟩ : MatchResult) ∈ exactCandidates d q := by
  unfold exactCandidates
  refine List.mem_append.mpr (Or.inr ?_)
  refine List.mem_flatMap.mpr ⟨al, hal, ?_⟩
  rw [if_pos htok]
  exact List.mem_map.mpr ⟨m, hm, rfl⟩

theorem exactCandidates_score {d : CropDetector} {q : PyStr} {mr : MatchResult}
    (h : mr ∈ exactCandidates d q) : mr.score = 100 := by
  unfold exactCandidates at h
  rcases List.mem_append.mp h with h | h <;>
  · obtain ⟨al, hal, hm⟩ := List.mem_flatMap.mp h
    split at hm
    · obtain ⟨m, _, hme⟩ := List.mem_map.mp hm
      rw [← hme]
    · simp at hm

theorem detect_eq_exact {ratio pratio : PyStr → PyStr → ℚ} {d : CropDetector}
    {q : PyStr} (h : exactCandidates d q ≠ []) :
    detect_single_variant ratio pratio d q = exactCandidates d q := by
  simp only [detect_single_variant]
  rw [if_pos h]

theorem exactCandidates_nil_q (crops : List CropEntry) :
    exactCandidates (mkDetector crops) [] = [] := by
  unfold exactCandidates
  have h1 : (mkDetector crops).multi_word_aliases.flatMap (fun al =>
      if containsSub al [] = true then
        (aliasMasters (mkDetector crops) al).map
          (fun m => (⟨m, 100, .exact_phrase, al⟩ : MatchResult))
      else []) = [] := by
    apply List.flatMap_eq_nil_iff.mpr
    intro al hal
    rw [if_neg]
    rw [containsSub_nil (hasSpace_ne_nil (multi_aliases_hasSpace hal))]
    simp
  have h2 : (mkDetector crops).single_word_aliases.flatMap (fun al =>
      if al ∈ splitWs [] then
        (aliasMasters (mkDetector crops) al).map
          (fun m => (⟨m, 100, .exact_word, al⟩ : MatchResult))
      else []) = [] := by
    apply List.flatMap_eq_nil_iff.mpr
    intro al _
    rw [if_neg]
    intro hmem
    simp [splitWs, splitWsAux] at hmem
  rw [h1, h2]
  rfl

theorem fuzzyCandidates_nil_q (ratio pratio : PyStr → PyStr → ℚ) (d : CropDetector) :
    fuzzyCandidates ratio pratio d [] = [] := by
  unfold fuzzyCandidates
  have hsplit : splitWs ([] : PyStr) = [] := rfl
  rw [hsplit]
  rw [if_neg]
  · rfl
  · intro hc
    simp at hc

theorem detect_single_variant_nil (ratio pratio : PyStr → PyStr → ℚ)
    (crops : List CropEntry) :
    detect_single_variant ratio pratio (mkDetector crops) [] = [] := by
  simp only [detect_single_variant, exactCandidates_nil_q]
  rw [if_neg (by simp)]
  exact fuzzyCandidates_nil_q ratio pratio (mkDetector crops)

theorem updateBest_single {c : PyStr} {acc : List (PyStr × MatchResult)} {mr : MatchResult}
    (hm : mr.master_name = c) (hs : mr.score = 100)
    (hacc : acc = [] ∨ ∃ r, acc = [(c, r)] ∧ r.master_name = c ∧ r.score = 100) :
    ∃ r, updateBest acc mr = [(c, r)] ∧ r.master_name = c ∧ r.score = 100 := by
  rcases hacc with h | ⟨r, hacc, hrm, hrs⟩
  · subst h
    refine ⟨mr, ?_, hm, hs⟩
    simp [updateBest, alookup, hm]
  · subst hacc
    have hl : alookup [(c, r)] mr.master_name = some r := by
      simp [alookup, hm]
    have hred : updateBest [(c, r)] mr =
        if r.score < mr.score ∨
            (mr.score = r.score ∧ typePriority r.match_type < typePriority mr.match_type) then
          updInPlace [(c, r)] mr.master_name mr
        else [(c, r)] := by
      rw [updateBest, hl]
    rw [hred]
    by_cases hcond : r.score < mr.score ∨
        (mr.score = r.score ∧ typePriority r.match_type < typePriority mr.match_type)
    · rw [if_pos hcond]
      refine ⟨mr, ?_, hm, hs⟩
      simp [updInPlace, hm]
    · rw [if_neg hcond]
      exact ⟨r, rfl, hrm, hrs⟩

theorem foldl_updateBest_single {c : PyStr} :
    ∀ (cands : List MatchResult) (acc : List (PyStr × MatchResult)),
      (∀ mr ∈ cands, mr.master_name = c ∧ mr.score = 100) →
      (acc = [] ∨ ∃ r, acc = [(c, r)] ∧ r.master_name = c ∧ r.score = 100) →
      (cands.foldl updateBest acc = acc ∧ cands = []) ∨
        ∃ r, cands.foldl updateBest acc = [(c, r)] ∧ r.master_name = c ∧ r.score = 100 := by
  intro cands
  induction cands with
  | nil => intro acc _ _; exact Or.inl ⟨rfl, rfl⟩
  | cons x xs ih =>
    intro acc h hacc
    right
    have hx := h x (List.mem_cons_self x xs)
    have hstep := updateBest_single hx.1 hx.2 hacc
    have hrec := ih (updateBest acc x) (fun mr hm => h mr (List.mem_cons_of_mem x hm))
      (Or.inr hstep)
    rcases hrec with ⟨heq, _⟩ | hr
    · rw [List.foldl_cons, heq]
      exact hstep
    · rw [List.foldl_cons]
      exact hr

theorem rank_candidates_single {c : PyStr} {cands : List MatchResult}
    (hne : cands ≠ [])
    (h : ∀ mr ∈ cands, mr.master_name = c ∧ mr.score = 100) :
    ∃ r, rank_candidates cands = [r] ∧ r.master_name = c ∧ r.score = 100 := by
  rcases foldl_updateBest_single cands [] h (Or.inl rfl) with ⟨_, hnil⟩ | ⟨r, heq, h1, h2⟩
  · exact absurd hnil hne
  · refine ⟨r, ?_, h1, h2⟩
    rw [rank_candidates, if_neg hne, heq]
    rfl

theorem round2_100 : round2 100 = 100 := by
  norm_num [round2, roundHalfEven]

/-- C4.  For every query whose deduplicated ranked candidates hold at least
two distinct crops with the two top scores within 2 points of each other,
`identify_crop` reports `ambiguous = true` and returns `best = None`. -/
theorem identify_crop_close_top_ambiguous
    (ratio pratio : PyStr → PyStr → ℚ) (crops : List CropEntry) (q : PyStr)
    (r0 r1 : MatchResult) (rest : List MatchResult)
    (hrank : rank_candidates (detect_single_variant ratio pratio (mkDetector crops)
        (normalize_text q)) = r0 :: r1 :: rest)
    (_hdistinct : r0.master_name ≠ r1.master_name)
    (hgap : r0.score - r1.score ≤ 2) :
    (identify_crop ratio pratio (mkDetector crops) q 5).ambiguous = true ∧
      (identify_crop ratio pratio (mkDetector crops) q 5).best = none := by
  have hq : normalize_text q ≠ [] := by
    intro h
    rw [h, detect_single_variant_nil] at hrank
    simp [rank_candidates] at hrank
  simp only [identify_crop]
  rw [if_neg hq, hrank]
  simp [finalize, hgap]

/-- The alias "nimbu" written as codepoints. -/
def nimbuQuery : PyStr := ls "nimbu"

/-- A two-crop vocabulary in which the alias "nimbu" is registered for both
Lemon and Acid Lime (the lexical collision the code comments call out). -/
def nimbuCrops : List CropEntry :=
  [⟨ls "Lemon", [⟨ls "nimbu", []⟩]⟩, ⟨ls "Acid Lime", [⟨ls "nimbu", []⟩]⟩]

/-- A degenerate fuzzy scorer; exact-match paths never consult it. -/
def zeroScore : PyStr → PyStr → ℚ := fun _ _ => 0

/-- Witness for C4 at the shared-alias vocabulary and the query "nimbu". -/
theorem identify_crop_close_top_ambiguous_witness :
    (identify_crop zeroScore zeroScore (mkDetector nimbuCrops) nimbuQuery 5).ambiguous = true ∧
      (identify_crop zeroScore zeroScore (mkDetector nimbuCrops) nimbuQuery 5).best = none := by
  refine identify_crop_close_top_ambiguous zeroScore zeroScore nimbuCrops nimbuQuery
    ⟨ls "Lemon", 100, .exact_word, ls "nimbu"⟩
    ⟨ls "Acid Lime", 100, .exact_word, ls "nimbu"⟩ [] ?_ ?_ ?_
  · decide
  · decide
  · norm_num

/-- C3 counterexample: the query "nimbu" exactly contains a registered
synonym of the crop Lemon (token membership of a single-word alias), yet
`identify_crop` returns `ambiguous = true` with `best = None` instead of the
single crop with score 100, because the same alias is also registered for
Acid Lime. -/
theorem identify_crop_exact_alias_counterexample :
    ls "Lemon" ∈ aliasMasters (mkDetector nimbuCrops) (ls "nimbu") ∧
      ls "nimbu" ∈ splitWs (normalize_text nimbuQuery) ∧
      (identify_crop zeroScore zeroScore (mkDetector nimbuCrops) nimbuQuery 5).ambiguous = true ∧
      (identify_crop zeroScore zeroScore (mkDetector nimbuCrops) nimbuQuery 5).best ≠
        some (as_dict ⟨ls "Lemon", 100, .exact_word, ls "nimbu"⟩) := by
  have hq : normalize_text nimbuQuery ≠ [] := by decide
  have hrank : rank_candidates (detect_single_variant zeroScore zeroScore
      (mkDetector nimbuCrops) (normalize_text nimbuQuery)) =
      [⟨ls "Lemon", 100, .exact_word, ls "nimbu"⟩,
        ⟨ls "Acid Lime", 100, .exact_word, ls "nimbu"⟩] := by decide
  refine ⟨by decide, by decide, ?_, ?_⟩ <;>
  · simp only [identify_crop]
    rw [if_neg hq, hrank]
    have hamb : ((100 : ℚ) - 100 ≤ 2) := by norm_num
    simp [finalize, hamb]

/-- C3 (amended).  If the normalized input exactly contains a registered
synonym of crop `c` (full-phrase containment for a multi-word alias, token
membership for a single-word alias), and `c` is the only crop that any exact
hit resolves to, then `identify_crop` returns `c` as the single result with
score 100 and `ambiguous = false`. -/
theorem identify_crop_exact_alias_unique
    (ratio pratio : PyStr → PyStr → ℚ) (crops : List CropEntry) (q c al : PyStr)
    (hreg : c ∈ aliasMasters (mkDetector crops) al)
    (hcontain :
      (hasSpace al = true ∧ containsSub al (normalize_text q) = true) ∨
        (hasSpace al = false ∧ al ∈ splitWs (normalize_text q)))
    (huniq : ∀ mr ∈ exactCandidates (mkDetector crops) (normalize_text q),
      mr.master_name = c) :
    (identify_crop ratio pratio (mkDetector crops) q 5).ambiguous = false ∧
      ∃ b, (identify_crop ratio pratio (mkDetector crops) q 5).best = some b ∧
        b.master_name = c ∧ b.score = 100 := by
  have hkey : al ∈ (buildAliasIndex crops).map Prod.fst := by
    have h := aliasMasters_key hreg
    rwa [mkDetector_index] at h
  have hmem : ∃ mt, (⟨c, 100, mt, al⟩ : MatchResult) ∈
      exactCandidates (mkDetector crops) (normalize_text q) := by
    rcases hcontain with ⟨hsp, hcon⟩ | ⟨hsp, htok⟩
    · exact ⟨.exact_phrase, exact_phrase_mem (mem_multi_aliases hkey hsp) hcon hreg⟩
    · exact ⟨.exact_word, exact_word_mem (mem_single_aliases hkey hsp) htok hreg⟩
  obtain ⟨mt, hmem⟩ := hmem
  have hne : exactCandidates (mkDetector crops) (normalize_text q) ≠ [] := by
    intro h0
    rw [h0] at hmem
    cases hmem
  have hq : normalize_text q ≠ [] := by
    intro h0
    rw [h0, exactCandidates_nil_q] at hne
    exact hne rfl
  have hboth : ∀ mr ∈ exactCandidates (mkDetector crops) (normalize_text q),
      mr.master_name = c ∧ mr.score = 100 :=
    fun mr hmr => ⟨huniq mr hmr, exactCandidates_score hmr⟩
  obtain ⟨r, hrank, hrm, hrs⟩ := rank_candidates_single hne hboth
  simp only [identify_crop]
  rw [if_neg hq, @detect_eq_exact ratio pratio (mkDetector crops) (normalize_text q) hne,
    hrank]
  refine ⟨by simp [finalize], as_dict r, by simp [finalize], ?_, ?_⟩
  · simp [as_dict, hrm]
  · simp [as_dict, hrs, round2_100]

/-- A one-crop vocabulary: Lemon with the single-word alias "nimbu". -/
def lemonOnlyCrops : List CropEntry := [⟨ls "Lemon", [⟨ls "nimbu", []⟩]⟩]

/-- Witness for the amended C3 at the one-crop vocabulary and query "nimbu". -/
theorem identify_crop_exact_alias_unique_witness :
    (identify_crop zeroScore zeroScore (mkDetector lemonOnlyCrops) nimbuQuery 5).ambiguous
        = false ∧
      ∃ b, (identify_crop zeroScore zeroScore (mkDetector lemonOnlyCrops) nimbuQuery 5).best
          = some b ∧
        b.master_name = ls "Lemon" ∧ b.score = 100 := by
  refine identify_crop_exact_alias_unique zeroScore zeroScore lemonOnlyCrops nimbuQuery
    (ls "Lemon") (ls "nimbu") ?_ (Or.inr ⟨?_, ?_⟩) ?_
  · decide
  · decide
  · decide
  · decide

/-! ### `services/crop_name.py`: the curated ambiguity table and `detect_crop`

The crops file is read into `CropsData`; the write-through of a newly
discovered crop (`_add_new_crop_to_file`) is a filesystem effect abstracted
as the boolean `fileAdded` it returns, and the LLM fallback
(`_ai_detect_crop`) is an external call abstracted as its parsed result. -/

/-- Python `dict.fromkeys` deduplication: keep the first occurrence. -/
def pyDedupAux {α : Type} [DecidableEq α] (seen : List α) : List α → List α
  | [] => []
  | a :: rest => if a ∈ seen then pyDedupAux seen rest else a :: pyDedupAux (a :: seen) rest

/-- Order-preserving first-occurrence deduplication (`list(dict.fromkeys(...))`). -/
def pyDedup {α : Type} [DecidableEq α] (l : List α) : List α := pyDedupAux [] l

/-- The `input_word` field of a curated ambiguity entry: a `{"en","hi"}`
record, a bare string, or absent/not a string. -/
inductive InputWord
  | dictEH (en hi : PyStr)
  | strW (w : PyStr)
  | absent
deriving DecidableEq, Repr

/-- The `variations` field: a list of strings, a bare string, or absent. -/
inductive Variations
  | listV (vs : List PyStr)
  | strV (v : PyStr)
  | absent
deriving DecidableEq, Repr

/-- One entry of the curated `ambiguous_names` table. -/
structure AmbEntry where
  input_word : InputWord
  variations : Variations
  resolves_to : List PyStr
  button_options : List PyStr
deriving DecidableEq, Repr

/-- The parsed crops file: the vocabulary plus the curated ambiguity table. -/
structure CropsData where
  crops : List CropEntry
  ambiguous_names : List AmbEntry
deriving DecidableEq, Repr

/-- The trigger phrases collected for one entry by `_find_ambiguous_match`:
the `en` and `hi` forms of `input_word` (or the bare string), then the
`variations`. -/
def entryVariants (e : AmbEntry) : List PyStr :=
  (match e.input_word with
    | .dictEH en hi => [en, hi]
    | .strW w => [w]
    | .absent => []) ++
  (match e.variations with
    | .listV vs => vs
    | .strV v => [v]
    | .absent => [])

/-- The per-variant test of `_find_ambiguous_match`: skip empty normalized
variants; substring containment for multi-word variants, token membership
for single-word ones. -/
def variantMatches (qNorm : PyStr) (qTokens : List PyStr) (v : PyStr) : Bool :=
  let vn := normalize_text v
  if vn = [] then false
  else if hasSpace vn then containsSub vn qNorm
  else decide (vn ∈ qTokens)

/-- Does any variant of the entry match (the inner loop returns the entry on
the first matching variant, so an entry matches when some variant does)? -/
def entryMatches (qNorm : PyStr) (qTokens : List PyStr) (e : AmbEntry) : Bool :=
  (entryVariants e).any (variantMatches qNorm qTokens)

/-- `crop_name._find_ambiguous_match`: the first entry of the curated table
one of whose trigger phrases occurs in the normalized query. -/
def find_ambiguous_match (query : PyStr) (data : CropsData) : Option AmbEntry :=
  if data.ambiguous_names = [] then none
  else
    let qNorm := normalize_text query
    if qNorm = [] then none
    else data.ambiguous_names.find? (entryMatches qNorm (splitWs qNorm))

/-- `crop_name._pick_hindi_from_synonyms` on a synonym list: the first
nonempty stripped `hi` form, else the empty string. -/
def pick_hindi_from_synonyms : List SynPair → PyStr
  | [] => []
  | s :: rest =>
    if stripEnds s.hi ≠ [] then stripEnds s.hi else pick_hindi_from_synonyms rest

/-- `crop_name._get_hindi_name_for_master`. -/
def get_hindi_name_for_master (master : PyStr) (data : CropsData) : PyStr :=
  match data.crops.find?
      (fun item => decide (normalize_text item.master_name = normalize_text master)) with
  | some item =>
    let hi := pick_hindi_from_synonyms item.synonyms
    if hi ≠ [] then hi else master
  | none => master

/-- The status token of the parsed LLM fallback result. -/
inductive AiStatus
  | noneS
  | masterS
  | newS
deriving DecidableEq, Repr

/-- The parsed result of `_ai_detect_crop`: its status, the reported crop
name when it was a string, and the reported synonym records. -/
structure AiResult where
  status : AiStatus
  crop_name : Option PyStr
  synonyms : List SynPair
deriving DecidableEq, Repr

/-- The `matched_by` tag of a `detect_crop` result. -/
inductive MatchedBy
  | curated_ambiguous
  | localM
  | local_ambiguous
  | noneM
  | ai_new
  | ai_existing
deriving DecidableEq, Repr

/-- The dictionary returned by `detect_crop`; keys the code omits on a given
path are `none` or `[]` here. -/
structure DetectCropResult where
  crop_name : Option PyStr
  crop_name_hi : Option PyStr
  is_ambiguous : Bool
  ambiguous_crop_names : List PyStr
  button_options : List PyStr
  matched_by : MatchedBy
  is_existing_crop : Option Bool
  file_added : Option Bool
deriving DecidableEq, Repr

/-- `crop_name.detect_crop`: local fuzzy detection, then the curated
ambiguity override, then the local best / local ambiguous branches, then the
LLM fallback. -/
def detect_crop (ratio pratio : PyStr → PyStr → ℚ) (data : CropsData) (query : PyStr)
    (ai : AiResult) (fileAdded : Bool) : DetectCropResult :=
  let d := mkDetector data.crops
  let localR := identify_crop ratio pratio d query 5
  match find_ambiguous_match query data with
  | some entry =>
    { crop_name := none, crop_name_hi := none, is_ambiguous := true,
      ambiguous_crop_names := entry.resolves_to, button_options := entry.button_options,
      matched_by := .curated_ambiguous, is_existing_crop := none, file_added := none }
  | none =>
    match localR.best, localR.ambiguous with
    | some b, false =>
      { crop_name := some b.master_name,
        crop_name_hi := some (get_hindi_name_for_master b.master_name data),
        is_ambiguous := false, ambiguous_crop_names := [], button_options := [],
        matched_by := .localM, is_existing_crop := some true, file_added := none }
    | _, amb =>
      if amb then
        { crop_name := none, crop_name_hi := none, is_ambiguous := true,
          ambiguous_crop_names := pyDedup (localR.candidates.map CandidateDict.master_name),
          button_options := [], matched_by := .local_ambiguous,
          is_existing_crop := none, file_added := none }
      else
        match ai.status with
        | .noneS =>
          { crop_name := none, crop_name_hi := none, is_ambiguous := false,
            ambiguous_crop_names := [], button_options := [], matched_by := .noneM,
            is_existing_crop := none, file_added := none }
        | st =>
          match (match ai.crop_name with
            | none => none
            | some s => if stripEnds s = [] then none else some (stripEnds s)) with
          | none =>
            { crop_name := none, crop_name_hi := none, is_ambiguous := false,
              ambiguous_crop_names := [], button_options := [], matched_by := .noneM,
              is_existing_crop := none, file_added := none }
          | some aiCrop =>
            if st = .newS then
              { crop_name := some aiCrop,
                crop_name_hi := some
                  (let hi := pick_hindi_from_synonyms ai.synonyms
                   if hi ≠ [] then hi else aiCrop),
                is_ambiguous := false, ambiguous_crop_names := [], button_options := [],
                matched_by := .ai_new,
                is_existing_crop := some (if fileAdded then false else true),
                file_added := some fileAdded }
            else
              { crop_name := some aiCrop,
                crop_name_hi := some (get_hindi_name_for_master aiCrop data),
                is_ambiguous := false, ambiguous_crop_names := [], button_options := [],
                matched_by := .ai_existing, is_existing_crop := some true,
                file_added := none }

/-- C5.  If the normalized input contains a trigger phrase of the curated
ambiguity table (token membership for a single-word trigger, substring
containment for a multi-word trigger), `detect_crop` returns the curated
ambiguous candidate set with `crop_name = None` - for every local detection
outcome (including an exact alias match) and every LLM fallback outcome:
the curated table overrides both exact and fuzzy automatic matching. -/
theorem detect_crop_curated_override
    (ratio pratio : PyStr → PyStr → ℚ) (data : CropsData) (query : PyStr)
    (ai : AiResult) (fileAdded : Bool) (e : AmbEntry) (v : PyStr)
    (he : e ∈ data.ambiguous_names) (hv : v ∈ entryVariants e)
    (hcon :
      (hasSpace (normalize_text v) = true ∧
        containsSub (normalize_text v) (normalize_text query) = true) ∨
      (hasSpace (normalize_text v) = false ∧ normalize_text v ≠ [] ∧
        normalize_text v ∈ splitWs (normalize_text query))) :
    ∃ e2, e2 ∈ data.ambiguous_names ∧
      entryMatches (normalize_text query) (splitWs (normalize_text query)) e2 = true ∧
      detect_crop ratio pratio data query ai fileAdded =
        { crop_name := none, crop_name_hi := none, is_ambiguous := true,
          ambiguous_crop_names := e2.resolves_to, button_options := e2.button_options,
          matched_by := .curated_ambiguous, is_existing_crop := none,
          file_added := none } := by
  have hvn : normalize_text v ≠ [] := by
    rcases hcon with ⟨hsp, _⟩ | ⟨_, hvn, _⟩
    · exact hasSpace_ne_nil hsp
    · exact hvn
  have hq : normalize_text query ≠ [] := by
    intro h0
    rcases hcon with ⟨_, hsub⟩ | ⟨_, _, htok⟩
    · rw [h0, containsSub_nil hvn] at hsub
      cases hsub
    · rw [h0] at htok
      simp [splitWs, splitWsAux] at htok
  have hvm : variantMatches (normalize_text query) (splitWs (normalize_text query)) v = true := by
    unfold variantMatches
    rw [if_neg hvn]
    rcases hcon with ⟨hsp, hsub⟩ | ⟨hsp, _, htok⟩
    · rw [if_pos hsp]
      exact hsub
    · rw [if_neg (by simp [hsp])]
      exact decide_eq_true htok
  have hem : entryMatches (normalize_text query) (splitWs (normalize_text query)) e = true :=
    List.any_eq_true.mpr ⟨v, hv, hvm⟩
  have hne : data.ambiguous_names ≠ [] := by
    intro h0
    rw [h0] at he
    cases he
  have hsome : (find_ambiguous_match query data).isSome = true := by
    unfold find_ambiguous_match
    rw [if_neg hne, if_neg hq]
    exact List.find?_isSome.mpr ⟨e, he, hem⟩
  obtain ⟨e2, he2⟩ := Option.isSome_iff_exists.mp hsome
  refine ⟨e2, ?_, ?_, ?_⟩
  · have hmem : e2 ∈ data.ambiguous_names := by
      unfold find_ambiguous_match at he2
      rw [if_neg hne, if_neg hq] at he2
      exact List.mem_of_find?_eq_some he2
    exact hmem
  · have hp : entryMatches (normalize_text query) (splitWs (normalize_text query)) e2 = true := by
      unfold find_ambiguous_match at he2
      rw [if_neg hne, if_neg hq] at he2
      exact List.find?_some he2
    exact hp
  · unfold detect_crop
    rw [he2]

/-- A curated ambiguity table entry: "nimbu" resolves to Lemon or Acid Lime. -/
def nimbuAmbEntry : AmbEntry :=
  ⟨.dictEH (ls "nimbu") [], .absent, [ls "Lemon", ls "Acid Lime"],
    [ls "Lemon", ls "Acid Lime"]⟩

/-- Crops file with the shared-alias vocabulary and the curated nimbu entry:
the query "nimbu" is simultaneously an exact registered alias of both crops
and a curated trigger phrase. -/
def nimbuData : CropsData := ⟨nimbuCrops, [nimbuAmbEntry]⟩

/-- An arbitrary concrete LLM fallback outcome for the C5 witness. -/
def aiMasterLemon : AiResult := ⟨.masterS, some (ls "Lemon"), []⟩

/-- Witness for C5: the curated entry wins on the query "nimbu" even though
the same input exactly matches a registered crop alias. -/
theorem detect_crop_curated_override_witness :
    ∃ e2, e2 ∈ nimbuData.ambiguous_names ∧
      entryMatches (normalize_text nimbuQuery) (splitWs (normalize_text nimbuQuery)) e2 = true ∧
      detect_crop zeroScore zeroScore nimbuData nimbuQuery aiMasterLemon false =
        { crop_name := none, crop_name_hi := none, is_ambiguous := true,
          ambiguous_crop_names := e2.resolves_to, button_options := e2.button_options,
          matched_by := .curated_ambiguous, is_existing_crop := none,
          file_added := none } := by
  refine detect_crop_curated_override zeroScore zeroScore nimbuData nimbuQuery
    aiMasterLemon false nimbuAmbEntry (ls "nimbu") ?_ ?_ (Or.inr ⟨?_, ?_, ?_⟩)
  · decide
  · decide
  · decide
  · decide
  · decide

/-! ### `services/conversation.py`: the multimodal query aggregator

The Gemini call is the external collaborator: it enters as its outcome
(an exception, or a response object whose `.text` may be `None`).  The
returned pair carries a flag recording whether the model request was
issued; the guard paths return before any request is constructed.  The
lazy `google.genai.types` import is assumed to succeed. -/

/-- Outcome of the underlying `generate_content` call. -/
inductive GenCallOutcome
  | exc
  | resp (text : Option PyStr)
deriving DecidableEq, Repr

/-- The status dictionary returned by `_aggregate_multimodal_query`. -/
inductive AggResult
  | ok (text : PyStr)
  | mismatch
  | error
deriving DecidableEq, Repr

/-- The fixed rejection phrase `f"This is not a question about {crop}"`. -/
def rejectionPhrase (crop : PyStr) : PyStr :=
  ls "This is not a question about " ++ crop

/-- `conversation._aggregate_multimodal_query`: guard on an absent crop and
on an empty input batch, then one model call; mismatch on case-insensitive
equality of the stripped output with the rejection phrase, error on empty
output or a failed call, ok otherwise. -/
def aggregate_multimodal_query (crop : PyStr) (texts audio_urls image_urls : List PyStr)
    (outcome : GenCallOutcome) : AggResult × Bool :=
  if crop = [] then (.error, false)
  else if texts = [] ∧ audio_urls = [] ∧ image_urls = [] then (.error, false)
  else
    match outcome with
    | .exc => (.error, true)
    | .resp text =>
      let raw := stripEnds (text.getD [])
      if pyLower (stripEnds raw) = pyLower (rejectionPhrase crop) then (.mismatch, true)
      else if raw = [] then (.error, true)
      else (.ok raw, true)

/-- C1 counterexample: with locked crop Wheat, the raw model output
"Sorry, this is not a question about Wheat." contains the rejection phrase
case-insensitively as a substring, yet the aggregator returns status ok
carrying that text rather than mismatch (the code tests case-insensitive
equality of the whole stripped output, not substring containment). -/
theorem aggregate_mismatch_substring_counterexample :
    containsSub (pyLower (rejectionPhrase (ls "Wheat")))
        (pyLower (ls "Sorry, this is not a question about Wheat.")) = true ∧
      aggregate_multimodal_query (ls "Wheat") [ls "my wheat is yellowing"] [] []
        (.resp (some (ls "Sorry, this is not a question about Wheat."))) =
        (.ok (ls "Sorry, this is not a question about Wheat."), true) := by
  constructor
  · decide
  · decide

theorem aggregate_resp_eq (crop : PyStr) (texts audio_urls image_urls : List PyStr)
    (text : Option PyStr) (hcrop : crop ≠ [])
    (hinput : ¬(texts = [] ∧ audio_urls = [] ∧ image_urls = [])) :
    aggregate_multimodal_query crop texts audio_urls image_urls (.resp text) =
      (if pyLower (stripEnds (stripEnds (text.getD []))) = pyLower (rejectionPhrase crop)
        then (.mismatch, true)
        else if stripEnds (text.getD []) = [] then (.error, true)
        else (.ok (stripEnds (text.getD [])), true)) := by
  unfold aggregate_multimodal_query
  rw [if_neg hcrop, if_neg hinput]

theorem aggregate_exc_eq (crop : PyStr) (texts audio_urls image_urls : List PyStr)
    (hcrop : crop ≠ [])
    (hinput : ¬(texts = [] ∧ audio_urls = [] ∧ image_urls = [])) :
    aggregate_multimodal_query crop texts audio_urls image_urls .exc = (.error, true) := by
  unfold aggregate_multimodal_query
  rw [if_neg hcrop, if_neg hinput]

/-- C1 (amended).  For a nonempty locked crop and a nonempty input batch:
the status is mismatch exactly when the call succeeded and the stripped
output equals the rejection phrase case-insensitively; a successful call
whose stripped output is nonempty and not the phrase yields ok carrying that
text; a failed call, or empty output, yields error. -/
theorem aggregate_multimodal_status
    (crop : PyStr) (texts audio_urls image_urls : List PyStr) (outcome : GenCallOutcome)
    (hcrop : crop ≠ []) (hinput : ¬(texts = [] ∧ audio_urls = [] ∧ image_urls = [])) :
    ((aggregate_multimodal_query crop texts audio_urls image_urls outcome).1 = .mismatch ↔
      ∃ text, outcome = .resp text ∧
        pyLower (stripEnds (stripEnds (text.getD []))) = pyLower (rejectionPhrase crop)) ∧
    (∀ text, outcome = .resp text →
      pyLower (stripEnds (stripEnds (text.getD []))) ≠ pyLower (rejectionPhrase crop) →
      stripEnds (text.getD []) ≠ [] →
      (aggregate_multimodal_query crop texts audio_urls image_urls outcome).1 =
        .ok (stripEnds (text.getD []))) ∧
    (outcome = .exc →
      (aggregate_multimodal_query crop texts audio_urls image_urls outcome).1 = .error) ∧
    (∀ text, outcome = .resp text →
      pyLower (stripEnds (stripEnds (text.getD []))) ≠ pyLower (rejectionPhrase crop) →
      stripEnds (text.getD []) = [] →
      (aggregate_multimodal_query crop texts audio_urls image_urls outcome).1 = .error) := by
  cases outcome with
  | exc =>
    rw [aggregate_exc_eq crop texts audio_urls image_urls hcrop hinput]
    refine ⟨?_, ?_, ?_, ?_⟩
    · simp
    · intro text h
      cases h
    · intro _
      rfl
    · intro text h
      cases h
  | resp text =>
    rw [aggregate_resp_eq crop texts audio_urls image_urls text hcrop hinput]
    by_cases hc : pyLower (stripEnds (stripEnds (text.getD []))) = pyLower (rejectionPhrase crop)
    · rw [if_pos hc]
      refine ⟨?_, ?_, ?_, ?_⟩
      · simp only [true_iff]
        exact ⟨text, rfl, hc⟩
      · intro t2 h2 hne _
        cases h2
        exact absurd hc hne
      · intro h2
        cases h2
      · intro t2 h2 hne _
        cases h2
        exact absurd hc hne
    · rw [if_neg hc]
      by_cases hr : stripEnds (text.getD []) = []
      · rw [if_pos hr]
        refine ⟨?_, ?_, ?_, ?_⟩
        · constructor
          · intro h0
            simp at h0
          · rintro ⟨t2, h2, hceq⟩
            cases h2
            exact absurd hceq hc
        · intro t2 h2 _ hne
          cases h2
          exact absurd hr hne
        · intro h2
          cases h2
        · intro t2 h2 _ _
          cases h2
          rfl
      · rw [if_neg hr]
        refine ⟨?_, ?_, ?_, ?_⟩
        · constructor
          · intro h0
            simp at h0
          · rintro ⟨t2, h2, hceq⟩
            cases h2
            exact absurd hceq hc
        · intro t2 h2 _ _
          cases h2
          rfl
        · intro h2
          cases h2
        · intro t2 h2 _ hre
          cases h2
          exact absurd hre hr

/-- Witness for the amended C1: a successful call with an exact (differently
cased, padded) rejection phrase, evaluated at crop Wheat. -/
theorem aggregate_multimodal_status_witness :
    (aggregate_multimodal_query (ls "Wheat") [ls "kya hua"] [] []
        (.resp (some (ls "  this is NOT a question about wheat  ")))).1 = .mismatch ∧
      ls "Wheat" ≠ ([] : PyStr) := by
  constructor
  · refine ((aggregate_multimodal_status (ls "Wheat") [ls "kya hua"] [] []
      (.resp (some (ls "  this is NOT a question about wheat  ")))
      (by decide) (by simp)).1).mpr ?_
    exact ⟨some (ls "  this is NOT a question about wheat  "), rfl, by decide⟩
  · decide

/-- C10.  If the locked crop is absent/empty, or all three collected input
sequences are empty, the aggregator returns status error immediately and the
model request is never constructed or issued (the issued flag stays false),
whatever the model would have answered. -/
theorem aggregate_guard_error
    (crop : PyStr) (texts audio_urls image_urls : List PyStr) (outcome : GenCallOutcome)
    (h : crop = [] ∨ (texts = [] ∧ audio_urls = [] ∧ image_urls = [])) :
    aggregate_multimodal_query crop texts audio_urls image_urls outcome = (.error, false) := by
  unfold aggregate_multimodal_query
  rcases h with h | h
  · rw [if_pos h]
  · by_cases hc : crop = []
    · rw [if_pos hc]
    · rw [if_neg hc, if_pos h]

/-- Witness for C10: empty input batch with a locked crop, against a model
outcome that would have answered. -/
theorem aggregate_guard_error_witness :
    aggregate_multimodal_query (ls "Wheat") [] [] []
        (.resp (some (ls "Wheat - how to sow?"))) = (.error, false) := by
  exact aggregate_guard_error (ls "Wheat") [] [] []
    (.resp (some (ls "Wheat - how to sow?"))) (Or.inr ⟨rfl, rfl, rfl⟩)

/-! ### The call orchestrator (backup `_gemini_generate_content`)

Wall-clock time is modeled as a rational clock threaded through an explicit
state that also counts the underlying calls submitted to the worker pool.
The external call is the function `outcome` from the attempt number to what
that attempt does (success with a response text, thread-pool timeout, or
another exception), each with its duration; `backoff` gives the sleep
duration (base plus jitter) after a failed attempt. -/

/-- `OVERALL_BUDGET_S`: the overall time budget for a single user request. -/
def OVERALL_BUDGET_S : ℚ := 90

/-- `_check_budget`: `false` once the elapsed time exceeds the budget. -/
def check_budget (start_total now : ℚ) : Bool :=
  if now - start_total > OVERALL_BUDGET_S then false else true

/-- The orchestrator-visible state: the clock and the submitted-call counter. -/
structure OrchState where
  clock : ℚ
  calls : Nat
deriving DecidableEq, Repr

/-- What one underlying `generate_content` attempt does. -/
inductive AttemptOutcome
  | success (text : Option PyStr) (dur : ℚ)
  | timeout (dur : ℚ)
  | failure (dur : ℚ)

/-- The result of `_gemini_generate_content`: the response object on success,
`TimeoutError` on a final timeout (including a budget violation), any other
exception as an error. -/
inductive OrchResult
  | ok (text : Option PyStr)
  | timeoutErr
  | errorErr
deriving DecidableEq, Repr

/-- The retry loop of `_gemini_generate_content`.  `fuel` is the number of
attempts still allowed (`retries + 1` at entry), `attempt` the 1-based index
of the next attempt, `lastTimeout` whether the last failure was the
thread-pool `TimeoutError`.  Before every attempt the overall budget is
checked when `start_total` was supplied; a violation raises `TimeoutError`
without submitting the call.  After a failed attempt the loop sleeps
(backoff) only if another attempt remains. -/
def geminiLoop (startTotal : Option ℚ) (outcome : Nat → AttemptOutcome)
    (backoff : Nat → ℚ) :
    Nat → Nat → Option Bool → OrchState → OrchResult × OrchState
  | 0, _, lastTimeout, st =>
    (match lastTimeout with
      | some true => .timeoutErr
      | some false => .errorErr
      | none => .errorErr, st)
  | fuel + 1, attempt, _lastTimeout, st =>
    if (startTotal.elim false (fun s => !check_budget s st.clock)) then (.timeoutErr, st)
    else
      let st1 : OrchState := { clock := st.clock, calls := st.calls + 1 }
      match outcome attempt with
      | .success text dur => (.ok text, { clock := st1.clock + dur, calls := st1.calls })
      | .timeout dur =>
        if fuel > 0 then
          geminiLoop startTotal outcome backoff fuel (attempt + 1) (some true)
            { clock := st1.clock + dur + backoff attempt, calls := st1.calls }
        else
          geminiLoop startTotal outcome backoff fuel (attempt + 1) (some true)
            { clock := st1.clock + dur, calls := st1.calls }
      | .failure dur =>
        if fuel > 0 then
          geminiLoop startTotal outcome backoff fuel (attempt + 1) (some false)
            { clock := st1.clock + dur + backoff attempt, calls := st1.calls }
        else
          geminiLoop startTotal outcome backoff fuel (attempt + 1) (some false)
            { clock := st1.clock + dur, calls := st1.calls }

/-- `_gemini_generate_content` with policy `retries`: at most `retries + 1`
attempts starting at attempt 1 with no recorded failure. -/
def gemini_generate_content (startTotal : Option ℚ) (retries : Nat)
    (outcome : Nat → AttemptOutcome) (backoff : Nat → ℚ) (st : OrchState) :
    OrchResult × OrchState :=
  geminiLoop startTotal outcome backoff (retries + 1) 1 none st

/-- C2 counterexample: the variety-lookup call site
(`_fetch_varieties_from_gemini`) invokes the orchestrator without
`start_total`.  At a clock 1000s into a request that started at time 0 - far
beyond the 90s budget - the underlying call is still submitted (the counter
reaches 1) and the result is the success, not a timeout failure. -/
theorem gemini_budget_check_counterexample :
    ((1000 : ℚ) - 0 > OVERALL_BUDGET_S) ∧
      (gemini_generate_content none 1 (fun _ => .success (some (ls "ok")) 1) (fun _ => 1)
          { clock := 1000, calls := 0 }).1 = .ok (some (ls "ok")) ∧
      (gemini_generate_content none 1 (fun _ => .success (some (ls "ok")) 1) (fun _ => 1)
          { clock := 1000, calls := 0 }).2.calls = 1 := by
  refine ⟨by norm_num [OVERALL_BUDGET_S], rfl, rfl⟩

/-- C2 (amended).  For every orchestrated call that carries the request
start time: before every attempt, including the first, the elapsed
wall-clock time is compared against the 90-second overall budget, and if the
budget is already exceeded the orchestrator raises the timeout failure
immediately without submitting the underlying call - the call counter (and
the clock) are unchanged.  The variety-lookup and variety-audit call sites
omit the start time and receive no budget check. -/
theorem gemini_budget_fail_fast
    (s : ℚ) (retries : Nat) (outcome : Nat → AttemptOutcome) (backoff : Nat → ℚ)
    (st : OrchState) (hover : st.clock - s > OVERALL_BUDGET_S) :
    gemini_generate_content (some s) retries outcome backoff st = (.timeoutErr, st) := by
  have hb : (Option.elim (some s) false (fun s0 => !check_budget s0 st.clock)) = true := by
    simp only [Option.elim, check_budget, if_pos hover, Bool.not_false]
  unfold gemini_generate_content
  rw [geminiLoop, if_pos hb]

/-- Witness for the amended C2: budget exceeded at entry (clock 100, start
0), the call would have succeeded, yet the result is the timeout failure and
the counter stays at 0. -/
theorem gemini_budget_fail_fast_witness :
    (100 : ℚ) - 0 > OVERALL_BUDGET_S ∧
      gemini_generate_content (some 0) 1 (fun _ => .success (some (ls "ok")) 1) (fun _ => 1)
          { clock := 100, calls := 0 } = (.timeoutErr, { clock := 100, calls := 0 }) := by
  constructor
  · norm_num [OVERALL_BUDGET_S]
  · exact gemini_budget_fail_fast 0 1 (fun _ => .success (some (ls "ok")) 1) (fun _ => 1)
      { clock := 100, calls := 0 } (by norm_num [OVERALL_BUDGET_S])

/-! ### The backup aggregator and its timeout fallback (claim C7) -/

/-- One row of `GEMINI_POLICY`. -/
structure GeminiPolicy where
  timeout_s : Nat
  retries : Nat
deriving DecidableEq, Repr

/-- `GEMINI_POLICY` of the backup snapshot.  The `aggregation_text_only`
row is commented out in the source and therefore absent from the table. -/
def GEMINI_POLICY : List (PyStr × GeminiPolicy) :=
  [(ls "aggregation_multimodal", ⟨180, 1⟩),
    (ls "advice_main", ⟨35, 1⟩),
    (ls "advice_audit", ⟨30, 1⟩),
    (ls "decomposition", ⟨25, 1⟩),
    (ls "rag_grounded", ⟨35, 1⟩),
    (ls "auditor_final", ⟨20, 1⟩),
    (ls "varieties_fetch", ⟨35, 1⟩),
    (ls "varieties_audit", ⟨35, 1⟩)]

/-- The status dictionary of the backup `_aggregate_multimodal_query`:
`ok`, `mismatch`, or `error` with its optional `"error"` tag. -/
inductive BkAggResult
  | ok (text : PyStr)
  | mismatch
  | error (tag : Option PyStr)
deriving DecidableEq, Repr

/-- The tail of the backup aggregator after `raw` is known: substring
mismatch check against `f"is not a question about {crop}".lower()`, then the
empty-output check.  `fbCalls` counts text-only fallback calls issued. -/
def bkMismatchCheck (crop raw : PyStr) (fbCalls : Nat) : BkAggResult × Nat :=
  let expected := pyLower (ls "is not a question about " ++ crop)
  if containsSub expected (pyLower raw) then (.mismatch, fbCalls)
  else if raw = [] then (.error (some (ls "empty")), fbCalls)
  else (.ok raw, fbCalls)

/-- The backup `_aggregate_multimodal_query`: guards, the multimodal call,
and on `TimeoutError` the fallback block, whose first statement is the
lookup `GEMINI_POLICY["aggregation_text_only"]`; when the key is absent that
lookup raises `KeyError` inside the fallback `try`, and the handler returns
`{"status": "error", "error": "timeout"}` without issuing the text-only
call.  The pair counts the text-only fallback calls issued. -/
def bk_aggregate_multimodal_query (crop : PyStr) (texts audio_urls image_urls : List PyStr)
    (outcome1 : OrchResult) (fallbackOutcome : OrchResult) : BkAggResult × Nat :=
  if crop = [] then (.error none, 0)
  else if texts = [] ∧ audio_urls = [] ∧ image_urls = [] then (.error none, 0)
  else
    match outcome1 with
    | .ok t => bkMismatchCheck crop (stripEnds (t.getD [])) 0
    | .errorErr => (.error (some (ls "error")), 0)
    | .timeoutErr =>
      match alookup GEMINI_POLICY (ls "aggregation_text_only") with
      | none => (.error (some (ls "timeout")), 0)
      | some _p =>
        match fallbackOutcome with
        | .ok t2 => bkMismatchCheck crop (stripEnds (t2.getD [])) 1
        | _ => (.error (some (ls "timeout")), 1)

/-- C7 (code bug).  When the multimodal aggregation call finally fails with
a timeout, the backup aggregator never issues the text-only fallback: the
policy row `aggregation_text_only` is commented out of `GEMINI_POLICY`, so
the fallback block dies on the dictionary lookup and the aggregator returns
`{"status": "error", "error": "timeout"}` with zero fallback calls issued,
whatever the fallback call would have returned. -/
theorem bk_aggregate_timeout_no_fallback
    (crop : PyStr) (texts audio_urls image_urls : List PyStr)
    (fallbackOutcome : OrchResult)
    (hcrop : crop ≠ []) (hinput : ¬(texts = [] ∧ audio_urls = [] ∧ image_urls = [])) :
    bk_aggregate_multimodal_query crop texts audio_urls image_urls .timeoutErr
        fallbackOutcome = (.error (some (ls "timeout")), 0) := by
  unfold bk_aggregate_multimodal_query
  rw [if_neg hcrop, if_neg hinput]
  have hlk : alookup GEMINI_POLICY (ls "aggregation_text_only") = none := by decide
  rw [hlk]

/-- Witness for C7: locked crop Wheat, one collected text, multimodal call
times out; the text-only call would have succeeded, yet the result is the
timeout error with zero fallback calls. -/
theorem bk_aggregate_timeout_no_fallback_witness :
    bk_aggregate_multimodal_query (ls "Wheat") [ls "leaf photo attached"] [] []
        .timeoutErr (.ok (some (ls "Wheat - leaf rust?"))) =
      (.error (some (ls "timeout")), 0) := by
  exact bk_aggregate_timeout_no_fallback (ls "Wheat") [ls "leaf photo attached"] [] []
    (.ok (some (ls "Wheat - leaf rust?"))) (by decide) (by simp)

/-! ### `services/rag_builder.py`: evidence retrieval (claims C6 and C8)

The Chroma index is the external collaborator: a reachable collection is its
crop-tag census (`_get_valid_crops`) plus the outcome of each filtered
similarity query; an unreachable index is `none` (`_get_collection`
returned `None`). -/

/-- `_DEFAULT_TOP_K`. -/
def DEFAULT_TOP_K : Nat := 3

/-- `_DEFAULT_DISTANCE_THRESHOLD = 0.35`. -/
def DEFAULT_DISTANCE_THRESHOLD : ℚ := 35 / 100

/-- `_normalize_crop_tag`: strip, lowercase, then spaces to underscores. -/
def normalize_crop_tag (crop_name : PyStr) : PyStr :=
  (pyLower (stripEnds crop_name)).map (fun c => if c = 32 then 95 else c)

/-- `_resolve_crop_tag`: exact census hit wins; else the first census tag
that extends the normalized tag with an underscore; else the normalized tag
as-is.  The census is a Python set; its iteration order is modeled by the
list order. -/
def resolve_crop_tag (normalized_crop : PyStr) (valid_crops : List PyStr) : PyStr :=
  if normalized_crop = [] then []
  else if valid_crops = [] then normalized_crop
  else if normalized_crop ∈ valid_crops then normalized_crop
  else
    match valid_crops.find? (fun db => startsWith (normalized_crop ++ [95]) db) with
    | some db => db
    | none => normalized_crop

/-- Python `line.split("|", 1)` preceded by the `"|" in line` test: the text
before the first `"|"` (codepoint 124) and the text after it, or `none`. -/
def splitOnce (sep : Nat) : List Nat → Option (PyStr × PyStr)
  | [] => none
  | c :: cs =>
    if c = sep then some ([], cs)
    else
      match splitOnce sep cs with
      | none => none
      | some (a, b) => some (c :: a, b)

/-- One parsed atomic query line. -/
structure ParsedQuery where
  crop : PyStr
  query : PyStr
  search_tag : PyStr
deriving DecidableEq, Repr

/-- The per-line parsing of `retrieve_rag_evidence`: skip lines without
`"|"` and lines whose atomic part strips to empty; resolve the crop tag. -/
def parseLine (valid_crops : List PyStr) (line : PyStr) : Option ParsedQuery :=
  match splitOnce 124 line with
  | none => none
  | some (bef, aft) =>
    let crop_raw := stripEnds bef
    let atomic_query := stripEnds aft
    if atomic_query = [] then none
    else some ⟨crop_raw, atomic_query,
      resolve_crop_tag (normalize_crop_tag crop_raw) valid_crops⟩

/-- One step of the `grouped.setdefault(tag, []).append(entry)` loop. -/
def insertGrouped (acc : List (PyStr × List ParsedQuery)) (e : ParsedQuery) :
    List (PyStr × List ParsedQuery) :=
  match acc with
  | [] => [(e.search_tag, [e])]
  | (k, v) :: rest =>
    if k = e.search_tag then (k, v ++ [e]) :: rest
    else (k, v) :: insertGrouped rest e

/-- Grouping of the parsed queries by resolved tag, in insertion order. -/
def groupBySearchTag (parsed : List ParsedQuery) : List (PyStr × List ParsedQuery) :=
  parsed.foldl insertGrouped []

/-- The status of an `EvidenceRecord`. -/
inductive RagStatus
  | FOUND
  | MISSING
  | ERROR
deriving DecidableEq, Repr

/-- One evidence record of `retrieve_rag_evidence`. -/
structure EvidenceRecord where
  query : PyStr
  crop : PyStr
  status : RagStatus
  evidence : List PyStr
  matched_crop : PyStr
  score : ℚ
deriving DecidableEq, Repr

/-- The per-group record loop of `retrieve_rag_evidence` (source lines
478-495): for the `idx`-th entry, its documents and distances rows, the
closest distance (1.0 when the row is absent or empty), `FOUND` exactly when
the row is nonempty and the closest distance is strictly below the
threshold, evidence deduplicated in order and empty unless `FOUND`. -/
def buildGroupRecords (tag : PyStr) (documents : List (List PyStr))
    (distances : List (List ℚ)) (threshold : ℚ) :
    Nat → List ParsedQuery → List EvidenceRecord
  | _, [] => []
  | idx, entry :: rest =>
    let docs := documents.getD idx []
    let dists := distances.getD idx []
    let top_distance := dists.headD 1
    let status : RagStatus :=
      if docs ≠ [] ∧ top_distance < threshold then .FOUND else .MISSING
    let raw_evidence := if status = .FOUND then docs else []
    ⟨entry.query, entry.crop, status, pyDedup raw_evidence, tag, top_distance⟩ ::
      buildGroupRecords tag documents distances threshold (idx + 1) rest

/-- A filtered similarity query against the collection: an exception, or the
`documents` and `distances` rows of the response (absent keys are empty lists). -/
inductive ChromaQueryOutcome
  | exc
  | resp (documents : List (List PyStr)) (distances : List (List ℚ))

/-- A reachable Chroma collection: its crop-tag census and the outcome of
each filtered query (`where={"crop": tag}` with the group's query texts). -/
structure Collection where
  valid_crops : List PyStr
  queryRes : PyStr → List PyStr → ChromaQueryOutcome

/-- The degraded record built per well-formed line when the collection is
unreachable. -/
def errorRecordNoCollection (line : PyStr) : Option EvidenceRecord :=
  match splitOnce 124 line with
  | none => none
  | some (bef, aft) =>
    if stripEnds aft = [] then none
    else some ⟨stripEnds aft, stripEnds bef, .ERROR, [], [], 1⟩

/-- `rag_builder.retrieve_rag_evidence`. -/
def retrieve_rag_evidence (collection : Option Collection)
    (decomposed_queries : List PyStr) (top_k : Nat) (distance_threshold : ℚ) :
    List EvidenceRecord :=
  if decomposed_queries = [] then []
  else
    match collection with
    | none => decomposed_queries.filterMap errorRecordNoCollection
    | some col =>
      let parsed := decomposed_queries.filterMap (parseLine col.valid_crops)
      if parsed = [] then []
      else
        (groupBySearchTag parsed).flatMap (fun g =>
          if g.1 = [] then
            g.2.map (fun e => ⟨e.query, e.crop, .MISSING, [], [], 1⟩)
          else
            match col.queryRes g.1 (g.2.map ParsedQuery.query) with
            | .exc => g.2.map (fun e => ⟨e.query, e.crop, .ERROR, [], g.1, 1⟩)
            | .resp documents distances =>
              buildGroupRecords g.1 documents distances distance_threshold 0 g.2)

/-- C8.  If no collection handle can be obtained, `retrieve_rag_evidence`
returns normally: the result is exactly one degraded record per well-formed
line of the batch, and every returned record has status ERROR, empty
evidence and score 1.0. -/
theorem retrieve_unreachable_degrades
    (decomposed_queries : List PyStr) (top_k : Nat) (threshold : ℚ) :
    retrieve_rag_evidence none decomposed_queries top_k threshold =
        decomposed_queries.filterMap errorRecordNoCollection ∧
      ∀ r ∈ retrieve_rag_evidence none decomposed_queries top_k threshold,
        r.status = .ERROR ∧ r.evidence = [] ∧ r.score = 1 := by
  have heq : retrieve_rag_evidence none decomposed_queries top_k threshold =
      decomposed_queries.filterMap errorRecordNoCollection := by
    by_cases h : decomposed_queries = []
    · subst h
      rfl
    · unfold retrieve_rag_evidence
      rw [if_neg h]
  refine ⟨heq, ?_⟩
  intro r hr
  rw [heq] at hr
  rcases List.mem_filterMap.mp hr with ⟨line, _, hline⟩
  unfold errorRecordNoCollection at hline
  split at hline
  · cases hline
  · split at hline
    · cases hline
    · cases hline
      exact ⟨rfl, rfl, rfl⟩

/-- Witness for C8: the unreachable-index degradation evaluated at the
single line "Wheat | fertilizer dosage". -/
theorem retrieve_unreachable_degrades_witness :
    (⟨ls "fertilizer dosage", ls "Wheat", RagStatus.ERROR, [], [], 1⟩ :
        EvidenceRecord).status = .ERROR ∧
      (⟨ls "fertilizer dosage", ls "Wheat", RagStatus.ERROR, [], [], 1⟩ :
        EvidenceRecord).evidence = [] ∧
      (⟨ls "fertilizer dosage", ls "Wheat", RagStatus.ERROR, [], [], 1⟩ :
        EvidenceRecord).score = 1 :=
  (retrieve_unreachable_degrades [ls "Wheat | fertilizer dosage"] DEFAULT_TOP_K
    DEFAULT_DISTANCE_THRESHOLD).2
    ⟨ls "fertilizer dosage", ls "Wheat", RagStatus.ERROR, [], [], 1⟩ (by decide)

/-- C6.  In the per-group loop run by `retrieve_rag_evidence` against a
reachable index (entered with `idx = 0` and the 0.35 default threshold), the
record produced for the `i`-th atomic query of the group has status FOUND
exactly when the search returned at least one passage for it and the closest
distance is strictly below the threshold; otherwise its status is MISSING
and its evidence list is empty. -/
theorem evidence_found_iff
    (tag : PyStr) (documents : List (List PyStr)) (distances : List (List ℚ)) :
    ∀ (entries : List ParsedQuery) (start i : Nat), i < entries.length →
      ∃ r, (buildGroupRecords tag documents distances DEFAULT_DISTANCE_THRESHOLD
          start entries)[i]? = some r ∧
        (r.status = .FOUND ↔
          (documents.getD (start + i) [] ≠ [] ∧
            (distances.getD (start + i) []).headD 1 < DEFAULT_DISTANCE_THRESHOLD)) ∧
        (r.status ≠ .FOUND → r.status = .MISSING ∧ r.evidence = []) := by
  intro entries
  induction entries with
  | nil =>
    intro start i h
    simp at h
  | cons e rest ih =>
    intro start i h
    cases i with
    | zero =>
      rw [buildGroupRecords]
      by_cases hc : documents.getD start [] ≠ [] ∧
          (distances.getD start []).headD 1 < DEFAULT_DISTANCE_THRESHOLD
      · refine ⟨_, List.getElem?_cons_zero, ?_, ?_⟩
        · simp only [if_pos hc, Nat.add_zero]
          exact ⟨fun _ => hc, fun _ => by trivial⟩
        · simp only [if_pos hc]
          intro hne
          exact absurd rfl hne
      · refine ⟨_, List.getElem?_cons_zero, ?_, ?_⟩
        · simp only [if_neg hc, Nat.add_zero]
          constructor
          · intro h0
            cases h0
          · intro h0
            exact absurd h0 hc
        · simp only [if_neg hc]
          intro _
          exact ⟨by trivial, by trivial⟩
    | succ j =>
      rw [buildGroupRecords]
      have hj : j < rest.length := by
        simp only [List.length_cons] at h
        omega
      obtain ⟨r, hget, hiff, hmiss⟩ := ih (start + 1) j hj
      refine ⟨r, ?_, ?_, hmiss⟩
      · simpa using hget
      · have harith : start + 1 + j = start + (j + 1) := by omega
        rw [harith] at hiff
        exact hiff

/-- Witness for C6: a one-entry group whose single passage sits at distance
0.1, below the 0.35 threshold. -/
theorem evidence_found_iff_witness :
    ∃ r, (buildGroupRecords (ls "wheat") [[ls "urea split dose"]] [[1/10]]
        DEFAULT_DISTANCE_THRESHOLD 0
        [⟨ls "Wheat", ls "fertilizer dosage", ls "wheat"⟩])[0]? = some r ∧
      (r.status = .FOUND ↔
        (([[ls "urea split dose"]].getD (0 + 0) [] : List PyStr) ≠ [] ∧
          (([[(1 : ℚ)/10]].getD (0 + 0) []).headD 1 < DEFAULT_DISTANCE_THRESHOLD))) ∧
      (r.status ≠ .FOUND → r.status = .MISSING ∧ r.evidence = []) :=
  evidence_found_iff (ls "wheat") [[ls "urea split dose"]] [[1/10]]
    [⟨ls "Wheat", ls "fertilizer dosage", ls "wheat"⟩] 0 0 (by decide)
